import Mathlib

/-!
Verification of the graph subsystem of `src/main.py`.

The embedded code is:
* `PersonAnalyzer.find_direct_connections` (sentence co-mention graph), and
* `GraphAnalyzer.find_indirect_connections` (bounded-depth breadth-first
  path enumeration),
together with the alias-matching helper they share.

Python strings are modelled as `String` when they are only compared for
equality or order (person names), and as `List Char` where substring
containment matters (sentences and aliases).  Python dicts are modelled as
association lists looked up with `List.lookup`, which matches dict semantics
because dict keys are unique.  The while-loop of `find_indirect_connections`
is modelled with an explicit step budget (`fuel`); `qMeasure` below is proved
to strictly decrease at every iteration, and `bfsLoop_fuel_irrel` shows that
any budget at least `qMeasure` of the initial queue yields the same result,
so the top-level function computes exactly what the Python loop computes.
-/

abbrev Node := String

abbrev Graph := List (Node × List Node)

/-- Python `self.graph.get(current, [])`: adjacency list with default `[]`. -/
def adjOf (g : Graph) (x : Node) : List Node :=
  (List.lookup x g).getD []

/-- Python key-membership test `person in self.graph`. -/
def hasKey (g : Graph) (x : Node) : Bool :=
  (List.lookup x g).isSome

/-- Paths recorded during one iteration of the inner for-loop of
`GraphAnalyzer.find_indirect_connections`: for every neighbor equal to the
target, `path + [neighbor]` is appended to the result list. -/
def expandFound (g : Graph) (target current : Node) (path : List Node) : List (List Node) :=
  ((adjOf g current).filter (fun n => n == target)).map (fun n => path ++ [n])

/-- Queue entries appended during one iteration of the inner for-loop: every
neighbor that is not the target and does not already occur in the path is
enqueued together with the extended path. -/
def expandQueue (g : Graph) (target current : Node) (path : List Node) :
    List (Node × List Node) :=
  ((adjOf g current).filter (fun n => !(n == target) && !(path.contains n))).map
    (fun n => (n, path ++ [n]))

/-- Largest adjacency-list length of the graph; bounds the branching of the
search and is used only to size the loop's step budget. -/
def maxAdj (g : Graph) : Nat :=
  (g.map (fun e => e.2.length)).foldr max 0

/-- Weight of a queue entry whose path has length `l`; entries beyond the
depth bound weigh nothing. -/
def weight (g : Graph) (d l : Nat) : Nat :=
  if l ≤ d then (maxAdj g + 1) ^ (d + 1 - l) else 0

/-- Total weight of a queue. -/
def qWeight (g : Graph) (d : Nat) (q : List (Node × List Node)) : Nat :=
  (q.map (fun e => weight g d e.2.length)).sum

/-- Step budget sufficient to drain a queue: strictly decreases at every
iteration of the loop (see `qMeasure_expand_lt`). -/
def qMeasure (g : Graph) (d : Nat) (q : List (Node × List Node)) : Nat :=
  (maxAdj g + 2) * qWeight g d q + q.length

/-- The while-loop of `GraphAnalyzer.find_indirect_connections`.  The queue is
popped from the front (`queue.pop(0)`) and extended at the back
(`queue.append`); the loop stops as soon as a dequeued path is longer than the
bound (`break`), returning the paths recorded so far.  The first `Nat`
argument is the step budget; `find_indirect_connections` passes a budget that
provably never runs out. -/
def bfsLoop (g : Graph) (target : Node) (d : Nat) :
    Nat → List (Node × List Node) → List (List Node) → List (List Node)
  | _, [], paths => paths
  | 0, _ :: _, paths => paths
  | fuel + 1, (current, path) :: rest, paths =>
    if path.length > d then paths
    else bfsLoop g target d fuel (rest ++ expandQueue g target current path)
      (paths ++ expandFound g target current path)

/-- `GraphAnalyzer.find_indirect_connections(person, target, max_depth)`:
returns `[]` when either endpoint is not a key of the graph, otherwise runs
the breadth-first loop from the single-entry queue `[(person, [person])]`. -/
def find_indirect_connections (g : Graph) (person target : Node) (max_depth : Nat) :
    List (List Node) :=
  if !(hasKey g person) || !(hasKey g target) then []
  else bfsLoop g target max_depth (qMeasure g max_depth [(person, [person])])
    [(person, [person])] []

/-- The §8 example graph of the spec. -/
def hpGraph : Graph :=
  [("Harry Potter", ["Hermione Granger", "Ron Weasley"]),
   ("Hermione Granger", ["Harry Potter"]),
   ("Ron Weasley", ["Harry Potter"])]

example :
    find_indirect_connections hpGraph "Hermione Granger" "Ron Weasley" 3 =
      [["Hermione Granger", "Harry Potter", "Ron Weasley"]] := by decide

example :
    find_indirect_connections hpGraph "Hermione Granger" "Hermione Granger" 3 =
      [["Hermione Granger", "Harry Potter", "Hermione Granger"]] := by decide

def chainGraph : Graph :=
  [("A", ["B"]), ("B", ["A", "C"]), ("C", ["B", "D"]), ("D", ["C"])]

example :
    find_indirect_connections chainGraph "A" "D" 3 = [["A", "B", "C", "D"]] := by decide

/-! Membership characterisations of one expansion step. -/

theorem mem_expandFound {g : Graph} {t c : Node} {p pp : List Node} :
    pp ∈ expandFound g t c p ↔ t ∈ adjOf g c ∧ pp = p ++ [t] := by
  simp only [expandFound, List.mem_map, List.mem_filter, beq_iff_eq]
  constructor
  · rintro ⟨n, ⟨hn, rfl⟩, rfl⟩
    exact ⟨hn, rfl⟩
  · rintro ⟨hn, rfl⟩
    exact ⟨t, ⟨hn, rfl⟩, rfl⟩

theorem mem_expandQueue {g : Graph} {t c : Node} {p : List Node} {e : Node × List Node} :
    e ∈ expandQueue g t c p ↔
      ∃ n, n ∈ adjOf g c ∧ n ≠ t ∧ n ∉ p ∧ e = (n, p ++ [n]) := by
  simp only [expandQueue, List.mem_map, List.mem_filter, Bool.and_eq_true,
    Bool.not_eq_true', beq_eq_false_iff_ne, List.contains_eq_any_beq,
    List.any_eq_false, beq_iff_eq]
  constructor
  · rintro ⟨n, ⟨hn, hne, hnp⟩, rfl⟩
    exact ⟨n, hn, hne, fun hmem => hnp n hmem rfl, rfl⟩
  · rintro ⟨n, hn, hne, hnp, rfl⟩
    exact ⟨n, ⟨hn, hne, fun x hx hxe => hnp (hxe ▸ hx)⟩, rfl⟩

theorem length_of_mem_expandFound {g : Graph} {t c : Node} {p pp : List Node}
    (h : pp ∈ expandFound g t c p) : pp.length = p.length + 1 := by
  rcases mem_expandFound.mp h with ⟨-, rfl⟩
  simp

theorem length_of_mem_expandQueue {g : Graph} {t c : Node} {p : List Node}
    {e : Node × List Node} (h : e ∈ expandQueue g t c p) : e.2.length = p.length + 1 := by
  rcases mem_expandQueue.mp h with ⟨n, -, -, -, rfl⟩
  simp

/-! Lemmas about the step budget: it strictly decreases at every loop
iteration, hence the budget passed by `find_indirect_connections` never runs
out and the embedded loop computes the Python loop's result. -/

theorem lookup_mem {x : Node} {v : List Node} :
    ∀ {g : Graph}, List.lookup x g = some v → (x, v) ∈ g := by
  intro g
  induction g with
  | nil => intro h; simp [List.lookup] at h
  | cons e rest ih =>
    intro h
    obtain ⟨k, b⟩ := e
    by_cases hxk : x = k
    · subst hxk
      simp [List.lookup] at h
      subst h
      exact List.mem_cons_self _ _
    · have hbeq : (x == k) = false := beq_eq_false_iff_ne.mpr hxk
      simp [List.lookup, hbeq] at h
      exact List.mem_cons_of_mem _ (ih h)

theorem length_le_maxAdj : ∀ {g : Graph} {e : Node × List Node}, e ∈ g →
    e.2.length ≤ maxAdj g := by
  intro g
  induction g with
  | nil => intro e h; simp at h
  | cons a rest ih =>
    intro e h
    have hcons : maxAdj (a :: rest) = max a.2.length (maxAdj rest) := rfl
    rcases List.mem_cons.mp h with rfl | h2
    · rw [hcons]; exact Nat.le_max_left _ _
    · rw [hcons]; exact le_trans (ih h2) (Nat.le_max_right _ _)

theorem adjOf_length_le (g : Graph) (x : Node) : (adjOf g x).length ≤ maxAdj g := by
  rw [adjOf]
  cases h : List.lookup x g with
  | none => simp
  | some v =>
    simp only [Option.getD_some]
    exact length_le_maxAdj (lookup_mem h)

theorem expandQueue_length_le (g : Graph) (t c : Node) (p : List Node) :
    (expandQueue g t c p).length ≤ maxAdj g := by
  rw [expandQueue, List.length_map]
  exact le_trans (List.length_filter_le _ _) (adjOf_length_le g c)

theorem qWeight_append (g : Graph) (d : Nat) (q₁ q₂ : List (Node × List Node)) :
    qWeight g d (q₁ ++ q₂) = qWeight g d q₁ + qWeight g d q₂ := by
  simp [qWeight, List.sum_append]

theorem sum_map_const_of {α : Type} (l : List α) (f : α → Nat) (w : Nat)
    (h : ∀ e ∈ l, f e = w) : (l.map f).sum = l.length * w := by
  induction l with
  | nil => simp
  | cons a rest ih =>
    simp only [List.map_cons, List.sum_cons, List.length_cons]
    rw [h a (List.mem_cons_self a rest), ih (fun e he => h e (List.mem_cons_of_mem a he))]
    ring

theorem weight_pos {g : Graph} {d l : Nat} (h : l ≤ d) : 1 ≤ weight g d l := by
  rw [weight, if_pos h]
  exact Nat.one_le_pow _ _ (Nat.succ_pos _)

theorem weight_succ {g : Graph} {d l : Nat} (h : l < d) :
    weight g d l = (maxAdj g + 1) * weight g d (l + 1) := by
  rw [weight, weight, if_pos (le_of_lt h), if_pos (Nat.succ_le_of_lt h)]
  have hsub : d + 1 - l = (d + 1 - (l + 1)) + 1 := by omega
  rw [hsub, pow_succ]
  ring

theorem qWeight_expandQueue (g : Graph) (t c : Node) (p : List Node) (d : Nat) :
    qWeight g d (expandQueue g t c p) =
      (expandQueue g t c p).length * weight g d (p.length + 1) := by
  rw [qWeight]
  exact sum_map_const_of _ _ _ (fun e he => by rw [length_of_mem_expandQueue he])

theorem qMeasure_expand_lt {g : Graph} {t c : Node} {p : List Node} {d : Nat}
    (rest : List (Node × List Node)) (hlen : p.length ≤ d) :
    qMeasure g d (rest ++ expandQueue g t c p) < qMeasure g d ((c, p) :: rest) := by
  have hn : (expandQueue g t c p).length ≤ maxAdj g := expandQueue_length_le g t c p
  have key : (maxAdj g + 2) * ((expandQueue g t c p).length * weight g d (p.length + 1)) +
      (expandQueue g t c p).length < (maxAdj g + 2) * weight g d p.length + 1 := by
    rcases Nat.lt_or_ge p.length d with hlt | hge
    · have hw : weight g d p.length = (maxAdj g + 1) * weight g d (p.length + 1) :=
        weight_succ hlt
      have hw2 : 1 ≤ weight g d (p.length + 1) := weight_pos (Nat.succ_le_of_lt hlt)
      have h1 : (expandQueue g t c p).length * weight g d (p.length + 1) ≤
          maxAdj g * weight g d (p.length + 1) := Nat.mul_le_mul_right _ hn
      have h2 : (maxAdj g + 2) * ((expandQueue g t c p).length * weight g d (p.length + 1)) ≤
          (maxAdj g + 2) * (maxAdj g * weight g d (p.length + 1)) := Nat.mul_le_mul_left _ h1
      have h3 : maxAdj g + 2 ≤ (maxAdj g + 2) * weight g d (p.length + 1) :=
        Nat.le_mul_of_pos_right _ hw2
      have h4 : (maxAdj g + 2) * weight g d p.length =
          (maxAdj g + 2) * (maxAdj g * weight g d (p.length + 1)) +
            (maxAdj g + 2) * weight g d (p.length + 1) := by
        rw [hw]; ring
      linarith
    · have hw2 : weight g d (p.length + 1) = 0 := by
        rw [weight, if_neg]; omega
      have hw1 : 1 ≤ weight g d p.length := weight_pos hlen
      have h3 : maxAdj g + 2 ≤ (maxAdj g + 2) * weight g d p.length :=
        Nat.le_mul_of_pos_right _ hw1
      rw [hw2]
      simp only [Nat.mul_zero]
      linarith
  have hcons : qWeight g d ((c, p) :: rest) = weight g d p.length + qWeight g d rest := by
    rw [qWeight, List.map_cons, List.sum_cons, qWeight]
  simp only [qMeasure, qWeight_append, qWeight_expandQueue, hcons, List.length_append,
    List.length_cons]
  nlinarith [key]

theorem qMeasure_skip_lt {g : Graph} {d : Nat} (e : Node × List Node)
    (rest : List (Node × List Node)) :
    qMeasure g d rest < qMeasure g d (e :: rest) := by
  simp only [qMeasure, qWeight, List.map_cons, List.sum_cons, List.length_cons]
  nlinarith [Nat.zero_le ((maxAdj g + 2) * weight g d e.2.length)]

theorem length_le_qMeasure {g : Graph} {d : Nat} {q : List (Node × List Node)} :
    q.length ≤ qMeasure g d q :=
  Nat.le_add_left _ _

/-- Any two step budgets at least `qMeasure` of the current queue make the
loop return the same result: the budget passed by `find_indirect_connections`
is therefore irrelevant as long as it is large enough, and the embedding
computes exactly the Python loop's output. -/
theorem bfsLoop_fuel_irrel {g : Graph} {t : Node} {d : Nat} :
    ∀ (f₁ : Nat) {f₂ : Nat} (q : List (Node × List Node)) (paths : List (List Node)),
      qMeasure g d q ≤ f₁ → qMeasure g d q ≤ f₂ →
      bfsLoop g t d f₁ q paths = bfsLoop g t d f₂ q paths := by
  intro f₁
  induction f₁ with
  | zero =>
    intro f₂ q paths h1 h2
    cases q with
    | nil => cases f₂ <;> rfl
    | cons e rest =>
      exfalso
      have hle := length_le_qMeasure (g := g) (d := d) (q := e :: rest)
      simp only [List.length_cons] at hle
      omega
  | succ f ih =>
    intro f₂ q paths h1 h2
    cases q with
    | nil => cases f₂ <;> rfl
    | cons e rest =>
      obtain ⟨c, p⟩ := e
      have hle := length_le_qMeasure (g := g) (d := d) (q := (c, p) :: rest)
      simp only [List.length_cons] at hle
      obtain ⟨f₂', rfl⟩ : ∃ f₂', f₂ = f₂' + 1 := ⟨f₂ - 1, by omega⟩
      simp only [bfsLoop]
      by_cases hgt : p.length > d
      · simp [hgt]
      · simp only [if_neg hgt]
        have hdec := qMeasure_expand_lt (g := g) (t := t) (c := c) (p := p) (d := d)
          rest (Nat.le_of_not_lt hgt)
        exact ih _ _ (by omega) (by omega)

/-! Invariant lemmas for the breadth-first loop. -/

/-- Every path the loop ever records has at most one node more than the depth
bound, because a path is only recorded while expanding a dequeued entry whose
path length is at most the bound. -/
theorem bfsLoop_length_le {g : Graph} {t : Node} {d : Nat} :
    ∀ (fuel : Nat) (q : List (Node × List Node)) (paths : List (List Node)),
      (∀ pp ∈ paths, pp.length ≤ d + 1) →
      ∀ pp ∈ bfsLoop g t d fuel q paths, pp.length ≤ d + 1 := by
  intro fuel
  induction fuel with
  | zero =>
    intro q paths hp pp hpp
    cases q with
    | nil => exact hp pp hpp
    | cons e rest => exact hp pp hpp
  | succ f ih =>
    intro q paths hp pp hpp
    cases q with
    | nil => exact hp pp hpp
    | cons e rest =>
      obtain ⟨c, p⟩ := e
      simp only [bfsLoop] at hpp
      by_cases hgt : p.length > d
      · rw [if_pos hgt] at hpp
        exact hp pp hpp
      · rw [if_neg hgt] at hpp
        refine ih _ _ ?_ pp hpp
        intro x hx
        rcases List.mem_append.mp hx with hx | hx
        · exact hp x hx
        · rw [length_of_mem_expandFound hx]
          omega

/-- Every path the loop records ends in the target, contains the target
nowhere else, and repeats no node, provided every pending queue entry avoids
the target and repeats no node. -/
theorem bfsLoop_paths_shape {g : Graph} {t : Node} {d : Nat} :
    ∀ (fuel : Nat) (q : List (Node × List Node)) (paths : List (List Node)),
      (∀ e ∈ q, t ∉ e.2 ∧ e.2.Nodup) →
      (∀ pp ∈ paths, ∃ pre, pp = pre ++ [t] ∧ t ∉ pre ∧ pre.Nodup) →
      ∀ pp ∈ bfsLoop g t d fuel q paths,
        ∃ pre, pp = pre ++ [t] ∧ t ∉ pre ∧ pre.Nodup := by
  intro fuel
  induction fuel with
  | zero =>
    intro q paths _ hp pp hpp
    cases q with
    | nil => exact hp pp hpp
    | cons e rest => exact hp pp hpp
  | succ f ih =>
    intro q paths hq hp pp hpp
    cases q with
    | nil => exact hp pp hpp
    | cons e rest =>
      obtain ⟨c, p⟩ := e
      obtain ⟨htp, hnd⟩ := hq (c, p) (List.mem_cons_self _ _)
      simp only [bfsLoop] at hpp
      by_cases hgt : p.length > d
      · rw [if_pos hgt] at hpp
        exact hp pp hpp
      · rw [if_neg hgt] at hpp
        refine ih _ _ ?_ ?_ pp hpp
        · intro x hx
          rcases List.mem_append.mp hx with hx | hx
          · exact hq x (List.mem_cons_of_mem _ hx)
          · rcases mem_expandQueue.mp hx with ⟨n, -, hnt, hnp, rfl⟩
            constructor
            · simp only [List.mem_append, List.mem_singleton]
              rintro (h | h)
              · exact htp h
              · exact hnt h.symm
            · simp only [List.nodup_append, List.nodup_singleton, true_and]
              exact ⟨hnd, by simpa [List.disjoint_singleton] using hnp⟩
        · intro x hx
          rcases List.mem_append.mp hx with hx | hx
          · exact hp x hx
          · rcases mem_expandFound.mp hx with ⟨-, rfl⟩
            exact ⟨p, rfl, htp, hnd⟩

/-- Claim C5: if the source or the target is not a key of the graph,
`find_indirect_connections` returns the empty list immediately (and, being a
total function, raises no error). -/
theorem find_indirect_connections_absent (g : Graph) (s t : Node) (d : Nat)
    (h : hasKey g s = false ∨ hasKey g t = false) :
    find_indirect_connections g s t d = [] := by
  rw [find_indirect_connections, if_pos]
  rcases h with h | h <;> simp [h]

/-- Witness for C5 at a concrete input: `"Neville"` is not a key of the §8
example graph, so the search returns `[]`. -/
theorem find_indirect_connections_absent_witness :
    find_indirect_connections hpGraph "Neville" "Harry Potter" 3 = [] :=
  find_indirect_connections_absent hpGraph "Neville" "Harry Potter" 3
    (Or.inl (by decide))

/-- Claim C1 (amended): every path returned by `find_indirect_connections`
has node count at most `max_depth + 1`; in particular with a bound of 3 no
returned path has more than 4 nodes. -/
theorem find_indirect_connections_length_le (g : Graph) (s t : Node) (d : Nat)
    (p : List Node) (hp : p ∈ find_indirect_connections g s t d) :
    p.length ≤ d + 1 := by
  rw [find_indirect_connections] at hp
  split at hp
  · simp at hp
  · exact bfsLoop_length_le _ _ _ (by simp) p hp

/-- Witness for C1 (amended) at a concrete input. -/
theorem find_indirect_connections_length_le_witness :
    (["A", "B", "C", "D"] : List Node).length ≤ 3 + 1 :=
  find_indirect_connections_length_le chainGraph "A" "D" 3 _ (by decide)

/-- Counterexample to C1 as stated: on the four-node chain graph
`A - B - C - D`, the search with depth bound 3 returns the path
`["A", "B", "C", "D"]`, which has 4 nodes, exceeding the bound.  The reason is
that a dequeued path of length exactly `max_depth` is still expanded, and a
neighbor equal to the target is recorded with one extra node. -/
theorem find_indirect_connections_depth_counterexample :
    ["A", "B", "C", "D"] ∈ find_indirect_connections chainGraph "A" "D" 3 ∧
      ¬ ((["A", "B", "C", "D"] : List Node).length ≤ 3) := by decide

/-- Counterexample to C2 as stated: on the §8 example graph the search from
`"Hermione Granger"` to herself with bound 3 does not return `[]`. -/
theorem find_indirect_connections_self_counterexample :
    find_indirect_connections hpGraph "Hermione Granger" "Hermione Granger" 3 ≠ [] := by
  decide

/-- Claim C2 (amended): when the source equals the target the search can
close a cycle back to the source, because the `neighbor == target` test fires
before the `neighbor not in path` test; on the §8 example graph with depth
bound 3 it returns the single cycle path
`["Hermione Granger", "Harry Potter", "Hermione Granger"]`. -/
theorem find_indirect_connections_self_cycle :
    find_indirect_connections hpGraph "Hermione Granger" "Hermione Granger" 3 =
      [["Hermione Granger", "Harry Potter", "Hermione Granger"]] := by decide

def loopGraph : Graph := [("A", ["B"]), ("B", ["A"])]

/-- Counterexample to C3 as stated: when the source equals the target the
returned cycle path `["A", "B", "A"]` repeats the node `"A"`. -/
theorem find_indirect_connections_repeat_counterexample :
    ["A", "B", "A"] ∈ find_indirect_connections loopGraph "A" "A" 3 ∧
      ¬ (["A", "B", "A"] : List Node).Nodup := by decide

/-- Claim C3 (amended): whenever the source differs from the target, no path
returned by `find_indirect_connections` contains a repeated node. -/
theorem find_indirect_connections_nodup (g : Graph) (s t : Node) (d : Nat)
    (hst : s ≠ t) (p : List Node) (hp : p ∈ find_indirect_connections g s t d) :
    p.Nodup := by
  rw [find_indirect_connections] at hp
  split at hp
  · simp at hp
  · have hshape := bfsLoop_paths_shape _ _ _ ?_ ?_ p hp
    · rcases hshape with ⟨pre, rfl, hnt, hnd⟩
      simp only [List.nodup_append, List.nodup_singleton, true_and]
      exact ⟨hnd, by simpa [List.disjoint_singleton] using hnt⟩
    · intro e he
      simp only [List.mem_singleton] at he
      subst he
      exact ⟨by simp [Ne.symm hst], List.nodup_singleton s⟩
    · intro pp hpp
      simp at hpp

/-- Witness for C3 (amended) at a concrete input. -/
theorem find_indirect_connections_nodup_witness :
    (["Hermione Granger", "Harry Potter", "Ron Weasley"] : List Node).Nodup :=
  find_indirect_connections_nodup hpGraph "Hermione Granger" "Ron Weasley" 3
    (by decide) _ (by decide)

/-- Claim C10: when the source differs from the target, every returned path
consists of a target-free prefix followed by the target as its final element,
so the target occurs exactly once and only in last position; the search never
enqueues the target for further expansion. -/
theorem find_indirect_connections_target_last (g : Graph) (s t : Node) (d : Nat)
    (hst : s ≠ t) (p : List Node) (hp : p ∈ find_indirect_connections g s t d) :
    ∃ pre, p = pre ++ [t] ∧ t ∉ pre := by
  rw [find_indirect_connections] at hp
  split at hp
  · simp at hp
  · have hshape := bfsLoop_paths_shape _ _ _ ?_ ?_ p hp
    · rcases hshape with ⟨pre, rfl, hnt, -⟩
      exact ⟨pre, rfl, hnt⟩
    · intro e he
      simp only [List.mem_singleton] at he
      subst he
      exact ⟨by simp [Ne.symm hst], List.nodup_singleton s⟩
    · intro pp hpp
      simp at hpp

/-- Witness for C10 at a concrete input. -/
theorem find_indirect_connections_target_last_witness :
    ∃ pre, (["Hermione Granger", "Harry Potter", "Ron Weasley"] : List Node) =
      pre ++ ["Ron Weasley"] ∧ "Ron Weasley" ∉ pre :=
  find_indirect_connections_target_last hpGraph "Hermione Granger" "Ron Weasley" 3
    (by decide) _ (by decide)

/-! Breadth-first ordering of the queue: entries are dequeued in
non-decreasing path-length order, and at any moment the pending path lengths
span at most two consecutive values. -/

/-- The pending queue is sorted by non-decreasing path length. -/
def QSorted (q : List (Node × List Node)) : Prop :=
  List.Pairwise (fun a b => a.2.length ≤ b.2.length) q

/-- The pending path lengths take at most two consecutive values. -/
def QLevels (q : List (Node × List Node)) : Prop :=
  ∃ k, ∀ e ∈ q, e.2.length = k ∨ e.2.length = k + 1

/-- One expansion step of the loop preserves both queue invariants. -/
theorem qinv_step {g : Graph} {t c : Node} {p : List Node}
    {rest : List (Node × List Node)}
    (hs : QSorted ((c, p) :: rest)) (hl : QLevels ((c, p) :: rest)) :
    QSorted (rest ++ expandQueue g t c p) ∧ QLevels (rest ++ expandQueue g t c p) := by
  obtain ⟨k, hk⟩ := hl
  rcases List.pairwise_cons.mp hs with ⟨hhead, hrest⟩
  have hnew : ∀ e ∈ expandQueue g t c p, e.2.length = p.length + 1 :=
    fun e he => length_of_mem_expandQueue he
  have hp0 : p.length = k ∨ p.length = k + 1 := hk (c, p) (List.mem_cons_self _ _)
  have hrle : ∀ e ∈ rest, e.2.length ≤ p.length + 1 := by
    intro e he
    have h1 : p.length ≤ e.2.length := hhead e he
    have h2 := hk e (List.mem_cons_of_mem _ he)
    omega
  constructor
  · rw [QSorted, List.pairwise_append]
    refine ⟨hrest, ?_, ?_⟩
    · exact List.pairwise_of_forall_mem_list
        (fun a ha b hb => by rw [hnew a ha, hnew b hb])
    · intro a ha b hb
      rw [hnew b hb]
      exact hrle a ha
  · rcases hp0 with hp | hp
    · refine ⟨k, fun e he => ?_⟩
      rcases List.mem_append.mp he with h | h
      · exact hk e (List.mem_cons_of_mem _ h)
      · right; rw [hnew e h, hp]
    · refine ⟨k + 1, fun e he => ?_⟩
      rcases List.mem_append.mp he with h | h
      · left
        have h1 : p.length ≤ e.2.length := hhead e h
        have h2 := hk e (List.mem_cons_of_mem _ h)
        omega
      · right; rw [hnew e h, hp]

/-- Paths are recorded by the loop in non-decreasing length order. -/
theorem bfsLoop_sorted {g : Graph} {t : Node} {d : Nat} :
    ∀ (fuel : Nat) (q : List (Node × List Node)) (paths : List (List Node)),
      QSorted q → QLevels q →
      List.Pairwise (fun a b => a.length ≤ b.length) paths →
      (∀ pp ∈ paths, ∀ e ∈ q, pp.length ≤ e.2.length + 1) →
      List.Pairwise (fun a b => a.length ≤ b.length) (bfsLoop g t d fuel q paths) := by
  intro fuel
  induction fuel with
  | zero =>
    intro q paths _ _ hp _
    cases q with
    | nil => exact hp
    | cons e rest => exact hp
  | succ f ih =>
    intro q paths hs hl hp hcross
    cases q with
    | nil => exact hp
    | cons e rest =>
      obtain ⟨c, p⟩ := e
      simp only [bfsLoop]
      by_cases hgt : p.length > d
      · rw [if_pos hgt]; exact hp
      · rw [if_neg hgt]
        have hfound : ∀ pp ∈ expandFound g t c p, pp.length = p.length + 1 :=
          fun pp hpp => length_of_mem_expandFound hpp
        have hheadrest : ∀ e ∈ rest, p.length ≤ e.2.length := by
          intro e he
          exact (List.pairwise_cons.mp hs).1 e he
        refine ih _ _ (qinv_step hs hl).1 (qinv_step hs hl).2 ?_ ?_
        · rw [List.pairwise_append]
          refine ⟨hp, ?_, ?_⟩
          · exact List.pairwise_of_forall_mem_list
              (fun a ha b hb => by rw [hfound a ha, hfound b hb])
          · intro a ha b hb
            have h1 : a.length ≤ p.length + 1 :=
              hcross a ha (c, p) (List.mem_cons_self _ _)
            rw [hfound b hb]
            exact h1
        · intro pp hpp e he
          rcases List.mem_append.mp hpp with hpp | hpp
          · rcases List.mem_append.mp he with he | he
            · exact hcross pp hpp e (List.mem_cons_of_mem _ he)
            · rw [length_of_mem_expandQueue he]
              have h1 : pp.length ≤ p.length + 1 :=
                hcross pp hpp (c, p) (List.mem_cons_self _ _)
              omega
          · rcases List.mem_append.mp he with he | he
            · rw [hfound pp hpp]
              have h1 := hheadrest e he
              omega
            · rw [hfound pp hpp, length_of_mem_expandQueue he]
              omega

/-- Claim C9: for every graph, source, target and depth bound, the list of
paths returned by `find_indirect_connections` is sorted by non-decreasing
node count: a later path is never shorter than an earlier one. -/
theorem find_indirect_connections_sorted_lengths (g : Graph) (s t : Node) (d : Nat) :
    List.Pairwise (fun a b => a.length ≤ b.length)
      (find_indirect_connections g s t d) := by
  rw [find_indirect_connections]
  split
  · simp
  · refine bfsLoop_sorted _ _ _ (List.pairwise_singleton _ _) ⟨1, by simp⟩
      List.Pairwise.nil ?_
    intro pp hpp
    simp at hpp

/-! Refinement claim: the global early exit versus a per-entry depth test. -/

/-- Variant of the while-loop following the words of the spec (§4.3 step 2 /
§9): instead of stopping the whole search at the first dequeued entry whose
path exceeds the bound, every dequeued entry is tested individually against
the depth bound and merely skipped when it is too long. -/
def bfsLoopEach (g : Graph) (target : Node) (d : Nat) :
    Nat → List (Node × List Node) → List (List Node) → List (List Node)
  | _, [], paths => paths
  | 0, _ :: _, paths => paths
  | fuel + 1, (current, path) :: rest, paths =>
    if path.length > d then bfsLoopEach g target d fuel rest paths
    else bfsLoopEach g target d fuel (rest ++ expandQueue g target current path)
      (paths ++ expandFound g target current path)

/-- Top-level search built on the per-entry depth test, everything else as in
`find_indirect_connections`. -/
def find_paths_each (g : Graph) (person target : Node) (max_depth : Nat) :
    List (List Node) :=
  if !(hasKey g person) || !(hasKey g target) then []
  else bfsLoopEach g target max_depth (qMeasure g max_depth [(person, [person])])
    [(person, [person])] []

/-- Draining a queue all of whose pending paths exceed the bound records
nothing. -/
theorem bfsLoopEach_all_long {g : Graph} {t : Node} {d : Nat} :
    ∀ (fuel : Nat) (q : List (Node × List Node)) (paths : List (List Node)),
      q.length ≤ fuel → (∀ e ∈ q, d < e.2.length) →
      bfsLoopEach g t d fuel q paths = paths := by
  intro fuel
  induction fuel with
  | zero =>
    intro q paths hlen _
    cases q with
    | nil => rfl
    | cons e rest => simp at hlen
  | succ f ih =>
    intro q paths hlen hq
    cases q with
    | nil => rfl
    | cons e rest =>
      obtain ⟨c, p⟩ := e
      simp only [bfsLoopEach]
      have hd : d < p.length := hq (c, p) (List.mem_cons_self _ _)
      rw [if_pos hd]
      refine ih rest paths ?_ (fun e he => hq e (List.mem_cons_of_mem _ he))
      simp only [List.length_cons] at hlen
      omega

/-- With a sufficient step budget, the loop with the global early exit and
the loop with the per-entry depth test agree on every queue satisfying the
breadth-first invariants: once the head of the sorted queue exceeds the
bound, every pending entry does, so the rest of the queue records nothing. -/
theorem bfsLoop_eq_bfsLoopEach {g : Graph} {t : Node} {d : Nat} :
    ∀ (fuel : Nat) (q : List (Node × List Node)) (paths : List (List Node)),
      qMeasure g d q ≤ fuel → QSorted q → QLevels q →
      bfsLoop g t d fuel q paths = bfsLoopEach g t d fuel q paths := by
  intro fuel
  induction fuel with
  | zero =>
    intro q paths hm _ _
    cases q with
    | nil => rfl
    | cons e rest =>
      exfalso
      have hle := length_le_qMeasure (g := g) (d := d) (q := e :: rest)
      simp only [List.length_cons] at hle
      omega
  | succ f ih =>
    intro q paths hm hs hl
    cases q with
    | nil => rfl
    | cons e rest =>
      obtain ⟨c, p⟩ := e
      simp only [bfsLoop, bfsLoopEach]
      by_cases hgt : p.length > d
      · rw [if_pos hgt, if_pos hgt]
        refine (bfsLoopEach_all_long f rest paths ?_ ?_).symm
        · have hle := length_le_qMeasure (g := g) (d := d) (q := (c, p) :: rest)
          simp only [List.length_cons] at hle
          omega
        · intro e he
          have h1 : p.length ≤ e.2.length := (List.pairwise_cons.mp hs).1 e he
          omega
      · rw [if_neg hgt, if_neg hgt]
        have hdec := qMeasure_expand_lt (g := g) (t := t) (c := c) (p := p) (d := d)
          rest (Nat.le_of_not_lt hgt)
        exact ih _ _ (by omega) (qinv_step hs hl).1 (qinv_step hs hl).2

/-- Claim C4: queue entries are dequeued in non-decreasing path-length order
(the FIFO queue preserves `QSorted`, see `qinv_step`), so stopping the whole
search the first time a dequeued path exceeds the bound returns exactly the
same list of paths as testing each dequeued entry individually against the
depth bound. -/
theorem find_indirect_connections_eq_find_paths_each (g : Graph) (s t : Node) (d : Nat) :
    find_indirect_connections g s t d = find_paths_each g s t d := by
  rw [find_indirect_connections, find_paths_each]
  split
  · rfl
  · exact bfsLoop_eq_bfsLoopEach _ _ _ le_rfl (List.pairwise_singleton _ _)
      ⟨1, by simp⟩

/-! Embedding of `PersonAnalyzer.find_direct_connections` and the alias
matching it uses.  Sentences and aliases are `List Char`; person names stay
`String`.  The Python `people` dict (name to lowercase alias set) is an
association list; the Python sets of mentioned names and of accumulated
neighbors are lists kept duplicate-free by construction, which leaves every
membership-based property (the ones proved below) unchanged. -/

abbrev Sentence := List Char

abbrev People := List (String × List (List Char))

/-- Python `sentence.lower()`. -/
def lowerChars (s : List Char) : List Char :=
  s.map Char.toLower

/-- Python substring test `needle in hay` on strings: some tail of `hay`
starts with `needle`. -/
def isSub (needle hay : List Char) : Bool :=
  hay.tails.any (fun tl => needle.isPrefixOf tl)

/-- Python `any(alias in sentence.lower() for alias in aliases)` from lines
84-85 of `src/main.py`. -/
def mentionsPerson (sentence : Sentence) (aliases : List (List Char)) : Bool :=
  aliases.any (fun al => isSub al (lowerChars sentence))

/-- The set comprehension of line 85: the names of the people one of whose
aliases occurs in the lowercased sentence. -/
def mentionedPeople (people : People) (sentence : Sentence) : List String :=
  (people.filter (fun pr => mentionsPerson sentence pr.2)).map Prod.fst

/-- The boolean substring test agrees with the mathematical infix relation. -/
theorem isSub_iff {a b : List Char} : isSub a b = true ↔ a <:+: b := by
  rw [isSub, List.any_eq_true]
  constructor
  · rintro ⟨tl, htl, hpre⟩
    exact List.infix_iff_prefix_suffix.mpr
      ⟨tl, List.isPrefixOf_iff_prefix.mp hpre, (List.mem_tails _ _).mp htl⟩
  · intro h
    rcases List.infix_iff_prefix_suffix.mp h with ⟨tl, hpre, hsuf⟩
    exact ⟨tl, (List.mem_tails _ _).mpr hsuf, List.isPrefixOf_iff_prefix.mpr hpre⟩

/-- Claim C7: for every people map and sentence, a person is in the mention
set of the sentence exactly when at least one stored alias of that person is
a substring of the lowercased sentence (case-insensitive substring
containment, not tokenized word match). -/
theorem mem_mentionedPeople (people : People) (S : Sentence) (p : String) :
    p ∈ mentionedPeople people S ↔
      ∃ aliases, (p, aliases) ∈ people ∧ ∃ a ∈ aliases, a <:+: lowerChars S := by
  rw [mentionedPeople]
  simp only [List.mem_map, List.mem_filter]
  constructor
  · rintro ⟨⟨name, aliases⟩, ⟨hmem, hb⟩, rfl⟩
    refine ⟨aliases, hmem, ?_⟩
    rw [mentionsPerson, List.any_eq_true] at hb
    obtain ⟨al, hal, hsub⟩ := hb
    exact ⟨al, hal, isSub_iff.mp hsub⟩
  · rintro ⟨aliases, hmem, al, hal, hsub⟩
    refine ⟨(p, aliases), ⟨hmem, ?_⟩, rfl⟩
    rw [mentionsPerson, List.any_eq_true]
    exact ⟨al, hal, isSub_iff.mpr hsub⟩

def emptyNamePeople : People := [("", [[]])]

/-- Counterexample to C8 as stated: a people map containing a person whose
canonical name is the empty string satisfies the §3 invariant (its alias set
contains its lowercased canonical name, the empty string), yet the empty
alias is a substring of the empty sentence, so the empty sentence's mention
set is not empty. -/
theorem mentionedPeople_empty_counterexample :
    (∀ pr ∈ emptyNamePeople, lowerChars pr.1.data ∈ pr.2) ∧
      mentionedPeople emptyNamePeople [] ≠ [] := by decide

/-- Claim C8 (amended): for every people map satisfying the §3 invariant and
in which no alias is the empty string, the empty sentence yields an empty
mention set. -/
theorem mentionedPeople_empty_sentence (people : People)
    (hinv : ∀ pr ∈ people, lowerChars pr.1.data ∈ pr.2)
    (hne : ∀ pr ∈ people, ∀ a ∈ pr.2, a ≠ []) :
    mentionedPeople people [] = [] := by
  rw [mentionedPeople]
  have hfilter : (people.filter (fun pr => mentionsPerson [] pr.2)) = [] := by
    rw [List.filter_eq_nil_iff]
    intro pr hpr
    rw [mentionsPerson, List.any_eq_true]
    rintro ⟨al, hal, hsub⟩
    have hnil : al = [] := by
      have h1 : al <:+: lowerChars [] := isSub_iff.mp hsub
      simpa [lowerChars] using h1
    exact hne pr hpr al hal hnil
  rw [hfilter]
  rfl

/-- Witness for C8 (amended) at a concrete input. -/
theorem mentionedPeople_empty_sentence_witness :
    mentionedPeople [("Harry Potter", ["harry potter".data])] [] = [] :=
  mentionedPeople_empty_sentence _ (by decide) (by decide)

/-! Embedding of the adjacency accumulation of
`PersonAnalyzer.find_direct_connections` (lines 83-89 of `src/main.py`). -/

/-- Python `itertools.combinations(xs, 2)`: all unordered pairs, in order. -/
def combinations2 : List String → List (String × String)
  | [] => []
  | x :: xs => (xs.map (fun y => (x, y))) ++ combinations2 xs

/-- Python set insertion `s.add(x)` on a duplicate-free list. -/
def setAdd (s : List String) (x : String) : List String :=
  if s.contains x then s else s ++ [x]

/-- Python `connections[a].add(b)` on the defaultdict: update the entry of
key `a` (creating it as an empty set first if absent, as `defaultdict(set)`
does). -/
def addDirected : Graph → String → String → Graph
  | [], a, b => [(a, [b])]
  | (k, v) :: rest, a, b =>
    if k == a then (k, setAdd v b) :: rest else (k, v) :: addDirected rest a b

/-- One iteration of the pair loop: `connections[p1].add(p2)` followed by
`connections[p2].add(p1)`. -/
def addEdge (c : Graph) (pr : String × String) : Graph :=
  addDirected (addDirected c pr.1 pr.2) pr.2 pr.1

/-- The accumulation loop of `find_direct_connections`: for every sentence,
every unordered pair of distinct mentioned people becomes a bidirectional
edge. -/
def buildConnections (people : People) (sentences : List Sentence) : Graph :=
  sentences.foldl
    (fun conns s => (combinations2 (mentionedPeople people s)).foldl addEdge conns) []

/-- Python string comparison `x <= y`: lexicographic on Unicode code
points. -/
def leChars : List Char → List Char → Bool
  | [], _ => true
  | _ :: _, [] => false
  | a :: as, b :: bs => if a < b then true else if b < a then false else leChars as bs

/-- Comparison of two names, as Python `sorted` compares strings. -/
def strLe (a b : String) : Bool :=
  leChars a.data b.data

/-- Insertion into a sorted list of names. -/
def insertSorted (x : String) : List String → List String
  | [] => [x]
  | y :: ys => if strLe x y then x :: y :: ys else y :: insertSorted x ys

/-- Python `sorted(v)` on a set of names, via insertion sort. -/
def sortNames (l : List String) : List String :=
  l.foldr insertSorted []

/-- `PersonAnalyzer.find_direct_connections(sentences)`: accumulate the
co-mention edges over all sentences, then sort every adjacency set. -/
def find_direct_connections (people : People) (sentences : List Sentence) : Graph :=
  (buildConnections people sentences).map (fun kv => (kv.1, sortNames kv.2))

example :
    find_direct_connections
      [("Harry Potter", ["harry potter".data]),
       ("Hermione Granger", ["hermione granger".data]),
       ("Ron Weasley", ["ron weasley".data])]
      ["Harry Potter and Hermione Granger talked.".data,
       "Ron Weasley and Harry Potter talked.".data] = hpGraph := by decide

/-! Symmetry of the accumulated adjacency structure. -/

theorem lookup_cons_self {k : String} {v : List Node} (rest : Graph) :
    List.lookup k ((k, v) :: rest) = some v := by
  simp [List.lookup]

theorem lookup_cons_ne {k x : String} {v : List Node} (rest : Graph) (h : x ≠ k) :
    List.lookup x ((k, v) :: rest) = List.lookup x rest := by
  simp [List.lookup, beq_eq_false_iff_ne.mpr h]

theorem lookup_addDirected (a b x : String) :
    ∀ (c : Graph), List.lookup x (addDirected c a b) =
      if x = a then some (setAdd (adjOf c a) b) else List.lookup x c := by
  intro c
  induction c with
  | nil =>
    by_cases hxa : x = a
    · subst hxa
      simp [addDirected, List.lookup, adjOf, setAdd]
    · simp [addDirected, adjOf, setAdd, hxa, lookup_cons_ne [] hxa]
  | cons e rest ih =>
    obtain ⟨k, v⟩ := e
    by_cases hka : k = a
    · subst hka
      have h1 : addDirected ((k, v) :: rest) k b = (k, setAdd v b) :: rest := by
        simp [addDirected]
      rw [h1]
      by_cases hxk : x = k
      · subst hxk
        rw [lookup_cons_self, if_pos rfl, adjOf, lookup_cons_self]
        rfl
      · rw [lookup_cons_ne rest hxk, if_neg hxk, lookup_cons_ne rest hxk]
    · have h1 : addDirected ((k, v) :: rest) a b = (k, v) :: addDirected rest a b := by
        simp [addDirected, beq_eq_false_iff_ne.mpr hka]
      rw [h1]
      by_cases hxk : x = k
      · subst hxk
        have hxa : x ≠ a := hka
        rw [lookup_cons_self, if_neg hxa, lookup_cons_self]
      · rw [lookup_cons_ne _ hxk, ih, lookup_cons_ne rest hxk]
        by_cases hxa : x = a
        · subst hxa
          have hadj : adjOf ((k, v) :: rest) x = adjOf rest x := by
            rw [adjOf, lookup_cons_ne rest hxk, adjOf]
          rw [if_pos rfl, if_pos rfl, hadj]
        · rw [if_neg hxa, if_neg hxa]

theorem adjOf_addDirected (c : Graph) (a b x : String) :
    adjOf (addDirected c a b) x = if x = a then setAdd (adjOf c a) b else adjOf c x := by
  rw [adjOf, lookup_addDirected]
  by_cases hxa : x = a
  · rw [if_pos hxa, if_pos hxa, Option.getD_some]
  · rw [if_neg hxa, if_neg hxa, adjOf]

theorem mem_setAdd {s : List String} {x y : String} :
    y ∈ setAdd s x ↔ y ∈ s ∨ y = x := by
  rw [setAdd]
  by_cases h : s.contains x
  · rw [if_pos h]
    have hx : x ∈ s := by simpa using h
    constructor
    · exact Or.inl
    · rintro (h1 | rfl)
      · exact h1
      · exact hx
  · rw [if_neg h]
    simp [List.mem_append]

theorem mem_adjOf_addEdge (c : Graph) (a b z w : String) :
    w ∈ adjOf (addEdge c (a, b)) z ↔
      w ∈ adjOf c z ∨ (z = a ∧ w = b) ∨ (z = b ∧ w = a) := by
  rw [addEdge]
  by_cases hzb : z = b
  · subst hzb
    rw [adjOf_addDirected, if_pos rfl, mem_setAdd, adjOf_addDirected]
    by_cases hza : z = a
    · rw [if_pos hza, mem_setAdd]
      subst hza
      tauto
    · rw [if_neg hza]
      tauto
  · rw [adjOf_addDirected, if_neg hzb, adjOf_addDirected]
    by_cases hza : z = a
    · rw [if_pos hza, mem_setAdd]
      subst hza
      tauto
    · rw [if_neg hza]
      tauto

/-- Symmetry of an adjacency structure: an undirected-graph invariant. -/
def SymmGraph (c : Graph) : Prop :=
  ∀ a b, b ∈ adjOf c a ↔ a ∈ adjOf c b

theorem symmGraph_nil : SymmGraph [] := by
  intro a b
  simp [adjOf, List.lookup]

theorem symmGraph_addEdge {c : Graph} (h : SymmGraph c) (pr : String × String) :
    SymmGraph (addEdge c pr) := by
  obtain ⟨a, b⟩ := pr
  intro x y
  rw [mem_adjOf_addEdge, mem_adjOf_addEdge, h x y]
  tauto

theorem symmGraph_foldl_addEdge :
    ∀ (prs : List (String × String)) {c : Graph}, SymmGraph c →
      SymmGraph (prs.foldl addEdge c) := by
  intro prs
  induction prs with
  | nil => intro c h; exact h
  | cons p rest ih => intro c h; exact ih (symmGraph_addEdge h p)

theorem symmGraph_buildConnections (people : People) (sentences : List Sentence) :
    SymmGraph (buildConnections people sentences) := by
  rw [buildConnections]
  have main : ∀ (ss : List Sentence) (c : Graph), SymmGraph c →
      SymmGraph (ss.foldl
        (fun conns s => (combinations2 (mentionedPeople people s)).foldl addEdge conns)
        c) := by
    intro ss
    induction ss with
    | nil => intro c h; exact h
    | cons s rest ih =>
      intro c h
      exact ih _ (symmGraph_foldl_addEdge _ h)
  exact main sentences [] symmGraph_nil

theorem mem_insertSorted {x y : String} :
    ∀ {l : List String}, y ∈ insertSorted x l ↔ y = x ∨ y ∈ l := by
  intro l
  induction l with
  | nil => simp [insertSorted]
  | cons a rest ih =>
    rw [insertSorted]
    by_cases h : strLe x a
    · rw [if_pos h]
      simp [List.mem_cons]
    · rw [if_neg h]
      simp only [List.mem_cons, ih]
      tauto

theorem mem_sortNames {y : String} : ∀ {l : List String}, y ∈ sortNames l ↔ y ∈ l := by
  intro l
  induction l with
  | nil => simp [sortNames]
  | cons a rest ih =>
    have h1 : sortNames (a :: rest) = insertSorted a (sortNames rest) := rfl
    rw [h1, mem_insertSorted, ih]
    simp [List.mem_cons]

theorem lookup_map_sortNames (x : String) :
    ∀ (c : Graph), List.lookup x (c.map (fun kv => (kv.1, sortNames kv.2))) =
      (List.lookup x c).map sortNames := by
  intro c
  induction c with
  | nil => rfl
  | cons e rest ih =>
    obtain ⟨k, v⟩ := e
    by_cases hxk : x = k
    · subst hxk
      rw [List.map_cons, lookup_cons_self, lookup_cons_self, Option.map_some']
    · rw [List.map_cons, lookup_cons_ne _ hxk, lookup_cons_ne _ hxk, ih]

theorem adjOf_find_direct_connections (people : People) (sentences : List Sentence)
    (x : String) :
    adjOf (find_direct_connections people sentences) x =
      sortNames (adjOf (buildConnections people sentences) x) := by
  rw [find_direct_connections, adjOf, adjOf, lookup_map_sortNames]
  cases List.lookup x (buildConnections people sentences) with
  | none => rfl
  | some v => rfl

/-- Claim C6: the graph produced by `find_direct_connections` is symmetric:
for all person names `a` and `b`, `b` occurs in the adjacency list of `a`
exactly when `a` occurs in the adjacency list of `b`. -/
theorem find_direct_connections_symm (people : People) (sentences : List Sentence)
    (a b : String) :
    b ∈ adjOf (find_direct_connections people sentences) a ↔
      a ∈ adjOf (find_direct_connections people sentences) b := by
  rw [adjOf_find_direct_connections, adjOf_find_direct_connections,
    mem_sortNames, mem_sortNames]
  exact symmGraph_buildConnections people sentences a b
